import Mathlib

set_option maxRecDepth 100000

/-!
Verification of the gitnab streaming tarball extractor (`src/extractor.ts`,
function `extractTarball`) against its natural-language specification.

JavaScript strings are embedded as `List Char`; the JS operations used by the
source (`indexOf`, `slice`, `split('/')`, `filter(Boolean)`, `join('/')`,
template concatenation, `path.dirname`) are given faithful executable
counterparts below.  The streaming run is embedded as a left fold over the
list of archive entries, threading the mutable run state
(`tarballPrefix`-style option, the `foundFiles` flag, and the list of issued
filesystem operations); the end-of-stream handler is embedded as the final
outcome computation, with an oracle `fsOk` giving the completion status of
each issued file write.
-/

/-- A JavaScript string, embedded as its list of characters. -/
abbrev JSStr := List Char

/-- JS `s.indexOf(sep)` for a one-character needle: index of the first
occurrence, or `-1` when absent. -/
def jsIndexOf (sep : Char) : JSStr → Int
  | [] => -1
  | c :: cs =>
    if c = sep then 0
    else
      let r := jsIndexOf sep cs
      if r < 0 then -1 else r + 1

/-- JS `s.split(sep)` for a one-character separator.  `"".split` gives
`[""]`, and separators at the ends produce empty pieces, exactly as in JS. -/
def jsSplit (sep : Char) : JSStr → List JSStr
  | [] => [[]]
  | c :: cs =>
    if c = sep then [] :: jsSplit sep cs
    else
      match jsSplit sep cs with
      | [] => [[c]]
      | s :: ss => (c :: s) :: ss

/-- JS `parts.join(sep)` for a one-character separator. -/
def jsJoin (sep : Char) : List JSStr → JSStr
  | [] => []
  | [s] => s
  | s :: rest => s ++ sep :: jsJoin sep rest

/-- Node `path.posix.dirname`, translated from its index-scanning loop. -/
def jsDirname (p : JSStr) : JSStr :=
  if p = [] then ['.']
  else
    let hasRoot := p.headD ' ' = '/'
    let scan := ((p.drop 1).reverse.dropWhile (· = '/')).dropWhile (· ≠ '/')
    if scan = [] then (if hasRoot then ['/'] else ['.'])
    else if hasRoot ∧ scan.length = 1 then ['/', '/']
    else p.take scan.length

/-- `s.split('/').filter(Boolean)`: the non-empty `/`-separated segments. -/
def segmentsOf (s : JSStr) : List JSStr :=
  (jsSplit '/' s).filter (fun x => x ≠ [])

/-- The kind of a tar archive entry (`entry.type` in node-tar, collapsed to
the three cases the source distinguishes). -/
inductive EntryType
  | file
  | directory
  | other
deriving DecidableEq, Repr

/-- One archive entry as the decoder yields it: raw path, kind, content. -/
structure TarEntry where
  path : JSStr
  kind : EntryType
  content : JSStr
deriving DecidableEq, Repr

/-- A filesystem side effect issued by the extraction engine. -/
inductive FsOp
  | mkdir (path : JSStr)
  | writeFile (path : JSStr) (content : JSStr)
deriving DecidableEq, Repr

/-- The options record of `extractTarball`. -/
structure ExtractOptions where
  destination : JSStr
  subpath : JSStr
  keepFolderName : Bool
deriving DecidableEq, Repr

/-- Final outcome of one extraction run. -/
inductive ExtractResult
  | completed
  | noFilesError (msg : JSStr)
  | writeError
deriving DecidableEq, Repr

/-- The per-run mutable state read and written by the tar `filter`
callback: the discovered archive root (null until discovered) and the
`foundFiles` flag. -/
structure FilterState where
  tarballPfx : Option JSStr
  foundFiles : Bool
deriving DecidableEq, Repr

/-- Source lines `const firstSlash = path.indexOf('/'); if (firstSlash > 0)
tarballPrefix = path.slice(0, firstSlash + 1);`: the root directory name a
single entry path can contribute, slash included. -/
def derivePfx (path : JSStr) : Option JSStr :=
  let firstSlash := jsIndexOf '/' path
  if firstSlash > 0 then some (path.take (firstSlash.toNat + 1)) else none

/-- The source's per-segment comparison loop
`for (i...) if (pathParts[i] !== subpathParts[i]) return false` — JS
indexing past the end yields `undefined`, which never equals a segment. -/
def segsStartWith : List JSStr → List JSStr → Bool
  | [], _ => true
  | _ :: _, [] => false
  | s :: ss, p :: ps => if p = s then segsStartWith ss ps else false

/-- The tar `filter` callback: detect the root on a null state, reject when
no root is known, strip `tarballPrefix.length` characters, split and filter
the relative path, compare against the subpath segments, require strictly
more segments than the subpath, and record `foundFiles` on acceptance. -/
def extractFilter (subpathParts : List JSStr) (st : FilterState) (path : JSStr) :
    FilterState × Bool :=
  let pfxNow : Option JSStr :=
    match st.tarballPfx with
    | some p => some p
    | none => derivePfx path
  match pfxNow with
  | none => (⟨none, st.foundFiles⟩, false)
  | some pfx =>
    let relativePath := path.drop pfx.length
    let pathParts := segmentsOf relativePath
    if segsStartWith subpathParts pathParts then
      if pathParts.length ≤ subpathParts.length then (⟨some pfx, st.foundFiles⟩, false)
      else (⟨some pfx, true⟩, true)
    else (⟨some pfx, st.foundFiles⟩, false)

/-- Source line `const stripCount = 1 + (keepFolderName ? subpathDepth - 1 :
subpathDepth);` — JS number arithmetic, so the value is an integer that can
reach `0`. -/
def stripCountFor (subpathParts : List JSStr) (keepFolderName : Bool) : Int :=
  1 + (if keepFolderName then (subpathParts.length : Int) - 1 else (subpathParts.length : Int))

/-- The `onReadEntry` callback: guard on a known root, strip `stripCount`
leading path segments of `entry.path.split('/')`, skip an empty result, and
dispatch on the entry kind (directory → mkdir, file → mkdir of the parent
then a file write, anything else → skip). -/
def onReadEntryStep (o : ExtractOptions) (subpathParts : List JSStr)
    (pfxOpt : Option JSStr) (e : TarEntry) : List FsOp :=
  match pfxOpt with
  | none => []
  | some _ =>
    let stripCount := stripCountFor subpathParts o.keepFolderName
    let pathParts := jsSplit '/' e.path
    let newPath := jsJoin '/' (pathParts.drop stripCount.toNat)
    if newPath = [] then []
    else
      let extractPath := o.destination ++ '/' :: newPath
      match e.kind with
      | .directory => [.mkdir extractPath]
      | .file => [.mkdir (jsDirname extractPath), .writeFile extractPath e.content]
      | .other => []

/-- Accumulated run state: the filter state plus the issued fs operations. -/
structure RunAcc where
  tarballPfx : Option JSStr
  foundFiles : Bool
  effects : List FsOp
deriving DecidableEq, Repr

/-- Processing of a single decoded entry: the `filter` decision followed,
on acceptance, by `onReadEntry` (node-tar only fires `onReadEntry` for
entries the filter admitted). -/
def processEntry (o : ExtractOptions) (subpathParts : List JSStr)
    (acc : RunAcc) (e : TarEntry) : RunAcc :=
  let st := (extractFilter subpathParts ⟨acc.tarballPfx, acc.foundFiles⟩ e.path).1
  let dec := (extractFilter subpathParts ⟨acc.tarballPfx, acc.foundFiles⟩ e.path).2
  if dec then
    ⟨st.tarballPfx, st.foundFiles, acc.effects ++ onReadEntryStep o subpathParts st.tarballPfx e⟩
  else ⟨st.tarballPfx, st.foundFiles, acc.effects⟩

/-- `subpath.split('/').filter(Boolean)` computed once per run. -/
def subpathPartsOf (o : ExtractOptions) : List JSStr :=
  segmentsOf o.subpath

/-- The state after the single forward pass over the archive entries. -/
def runState (entries : List TarEntry) (o : ExtractOptions) : RunAcc :=
  List.foldl (processEntry o (subpathPartsOf o)) ⟨none, false, []⟩ entries

/-- The error message of the zero-match rejection, built exactly like the
source's template literal around the raw `subpath` option. -/
def noFilesMessage (subpath : JSStr) : JSStr :=
  ("No files found at path \"".toList) ++ subpath ++
    ("\".\nPlease check that the path exists in the repository.".toList)

/-- The paths of the issued file writes (the write promises the engine
tracks). -/
def writePaths (ops : List FsOp) : List JSStr :=
  ops.filterMap (fun op => match op with
    | .writeFile p _ => some p
    | _ => none)

/-- `extractTarball`, as a function from the decoded entry stream and an
oracle `fsOk` (whether the write to a given path completes successfully) to
the final outcome and the list of issued filesystem operations.  The
end-of-stream handler rejects with the no-files error when nothing matched,
and otherwise completes only when every issued write succeeded. -/
def extractTarball (fsOk : JSStr → Bool) (entries : List TarEntry)
    (o : ExtractOptions) : ExtractResult × List FsOp :=
  let fin := runState entries o
  if fin.foundFiles = false then (.noFilesError (noFilesMessage o.subpath), fin.effects)
  else if (writePaths fin.effects).all fsOk then (.completed, fin.effects)
  else (.writeError, fin.effects)

/-- The matching decision as a function of the relative path alone (what
remains of `matches` after `path.slice(tarballPrefix.length)`). -/
def matchesRel (sp : List JSStr) (rel : JSStr) : Bool :=
  segsStartWith sp (segmentsOf rel) && decide (sp.length < (segmentsOf rel).length)

/-- The run-wide invariant behind the completion logic: a non-empty effect
list implies the `foundFiles` flag. -/
def FoundInv (acc : RunAcc) : Prop := acc.effects ≠ [] → acc.foundFiles = true

/-- An abstract entry of a well-formed provider archive: its path segments
relative to the provider-generated root directory, its kind, its content. -/
structure AbsEntry where
  segs : List JSStr
  kind : EntryType
  content : JSStr
deriving DecidableEq, Repr

/-- Concretize an abstract entry under root directory `P`: file and other
entries have path `P/seg1/.../segn`, directory entries additionally carry
the tar trailing slash (`P/seg1/.../segn/`). -/
def mkEntry (P : JSStr) (a : AbsEntry) : TarEntry :=
  ⟨P ++ '/' :: (jsJoin '/' a.segs ++ if a.kind = .directory then ['/'] else []),
   a.kind, a.content⟩

/-- Well-formedness of an abstract entry: at least one segment, and every
segment non-empty and slash-free. -/
def WfAbs (a : AbsEntry) : Prop :=
  a.segs ≠ [] ∧ ∀ s ∈ a.segs, s ≠ [] ∧ '/' ∉ s

/-- The filesystem operations the specification's layout predicts for one
abstract entry: a strict descendant `S ++ rest` of the subpath `S` is
materialized under the destination — directly at `rest` when
`keepFolderName` is false, under the subpath's last segment
(`S.drop (S.length - 1)` is `[last]`) when it is true — and an entry that is
not a strict descendant produces nothing. -/
def expectedOps (dest : JSStr) (S : List JSStr) (keep : Bool) (a : AbsEntry) : List FsOp :=
  if a.segs.take S.length = S ∧ S.length < a.segs.length then
    let rest := a.segs.drop S.length
    let outSegs := (if keep then S.drop (S.length - 1) else []) ++ rest
    let outPath := dest ++ '/' :: jsJoin '/' outSegs
    match a.kind with
    | .file => [.mkdir (jsDirname outPath), .writeFile outPath a.content]
    | .directory => [.mkdir (outPath ++ ['/'])]
    | .other => []
  else []

/-- The always-succeeding filesystem oracle. -/
def fsAll : JSStr → Bool := fun _ => true

/-! ### Algebra of the embedded JS string operations -/

theorem jsSplit_ne_nil (sep : Char) (l : JSStr) : jsSplit sep l ≠ [] := by
  induction l with
  | nil => simp [jsSplit]
  | cons c cs ih =>
    simp only [jsSplit]
    split
    · simp
    · cases h : jsSplit sep cs with
      | nil => simp
      | cons s ss => simp

theorem jsSplit_no_sep (sep : Char) (l : JSStr) (h : sep ∉ l) : jsSplit sep l = [l] := by
  induction l with
  | nil => rfl
  | cons c cs ih =>
    rw [List.mem_cons, not_or] at h
    obtain ⟨h1, h2⟩ := h
    have hcs : ¬ c = sep := fun hc => h1 hc.symm
    simp only [jsSplit, if_neg hcs, ih h2]

theorem jsSplit_append (sep : Char) (a b : JSStr) :
    jsSplit sep (a ++ sep :: b) = jsSplit sep a ++ jsSplit sep b := by
  induction a with
  | nil => simp [jsSplit]
  | cons c cs ih =>
    by_cases hc : c = sep
    · subst hc
      simp [jsSplit, ih]
    · rw [List.cons_append]
      simp only [jsSplit, if_neg hc]
      rw [ih]
      cases h : jsSplit sep cs with
      | nil => exact absurd h (jsSplit_ne_nil sep cs)
      | cons s ss => simp

theorem jsJoin_split (sep : Char) (l : JSStr) : jsJoin sep (jsSplit sep l) = l := by
  induction l with
  | nil => rfl
  | cons c cs ih =>
    by_cases hc : c = sep
    · simp only [jsSplit, if_pos hc]
      cases h : jsSplit sep cs with
      | nil => exact absurd h (jsSplit_ne_nil _ _)
      | cons s ss =>
        rw [h] at ih
        simp [jsJoin, ih, hc]
    · simp only [jsSplit, if_neg hc]
      cases h : jsSplit sep cs with
      | nil => exact absurd h (jsSplit_ne_nil _ _)
      | cons s ss =>
        rw [h] at ih
        cases ss with
        | nil =>
          simp only [jsJoin] at ih ⊢
          rw [ih]
        | cons s2 t =>
          simp only [jsJoin] at ih ⊢
          rw [List.cons_append, ih]

theorem jsSplit_join (sep : Char) (segs : List JSStr) (hne : segs ≠ [])
    (h : ∀ s ∈ segs, sep ∉ s) : jsSplit sep (jsJoin sep segs) = segs := by
  induction segs with
  | nil => exact absurd rfl hne
  | cons s rest ih =>
    cases rest with
    | nil =>
      simp only [jsJoin]
      exact jsSplit_no_sep _ _ (h s (by simp))
    | cons r t =>
      have hj : jsJoin sep (s :: r :: t) = s ++ sep :: jsJoin sep (r :: t) := by
        simp [jsJoin]
      rw [hj, jsSplit_append, jsSplit_no_sep sep s (h s (by simp)),
        ih (by simp) (fun x hx => h x (List.mem_cons_of_mem _ hx))]
      rfl

theorem jsIndexOf_append_sep (sep : Char) (P r : JSStr) (h : sep ∉ P) :
    jsIndexOf sep (P ++ sep :: r) = (P.length : Int) := by
  induction P with
  | nil => simp [jsIndexOf]
  | cons c cs ih =>
    rw [List.mem_cons, not_or] at h
    obtain ⟨h1, h2⟩ := h
    have hcs : ¬ c = sep := fun hc => h1 hc.symm
    rw [List.cons_append]
    simp only [jsIndexOf, if_neg hcs, ih h2]
    have hnn : ¬ ((cs.length : Int) < 0) := by omega
    rw [if_neg hnn]
    simp

theorem filter_ne_nil_self (l : List JSStr) (h : ∀ s ∈ l, s ≠ []) :
    l.filter (fun x => x ≠ []) = l := by
  induction l with
  | nil => rfl
  | cons s rest ih =>
    have hs : s ≠ [] := h s (by simp)
    have hrest := ih (fun x hx => h x (List.mem_cons_of_mem _ hx))
    simp [List.filter_cons, hs, hrest]
    exact fun a ha => h a (List.mem_cons_of_mem _ ha)

theorem segmentsOf_join (segs : List JSStr) (hne : segs ≠ [])
    (h : ∀ s ∈ segs, s ≠ [] ∧ '/' ∉ s) :
    segmentsOf (jsJoin '/' segs) = segs := by
  unfold segmentsOf
  rw [jsSplit_join '/' segs hne (fun s hs => (h s hs).2)]
  exact filter_ne_nil_self segs (fun s hs => (h s hs).1)

theorem segmentsOf_join_slash (segs : List JSStr) (hne : segs ≠ [])
    (h : ∀ s ∈ segs, s ≠ [] ∧ '/' ∉ s) :
    segmentsOf (jsJoin '/' segs ++ ['/']) = segs := by
  unfold segmentsOf
  have : jsJoin '/' segs ++ ['/'] = jsJoin '/' segs ++ '/' :: ([] : JSStr) := rfl
  rw [this, jsSplit_append, jsSplit_join '/' segs hne (fun s hs => (h s hs).2)]
  show (segs ++ [[]]).filter (fun x => x ≠ []) = segs
  rw [List.filter_append]
  rw [filter_ne_nil_self segs (fun s hs => (h s hs).1)]
  simp

theorem derivePfx_root (P r : JSStr) (hP : P ≠ []) (hs : '/' ∉ P) :
    derivePfx (P ++ '/' :: r) = some (P ++ ['/']) := by
  unfold derivePfx
  rw [jsIndexOf_append_sep '/' P r hs]
  have hl : (0 : Int) < (P.length : Int) := by
    cases P with
    | nil => exact absurd rfl hP
    | cons x xs => simp
  rw [if_pos hl]
  congr 1
  have ht : (P.length : Int).toNat = P.length := by simp
  rw [ht, List.take_append_eq_append_take]
  simp

theorem segsStartWith_iff (sp ps : List JSStr) :
    segsStartWith sp ps = true ↔ ps.take sp.length = sp := by
  induction sp generalizing ps with
  | nil => simp [segsStartWith]
  | cons s ss ih =>
    cases ps with
    | nil => simp [segsStartWith]
    | cons p pt =>
      simp only [segsStartWith, List.length_cons, List.take_succ_cons, List.cons.injEq]
      by_cases hp : p = s
      · subst hp
        simp [ih]
      · simp [hp]

theorem extractFilter_some (sp : List JSStr) (pfx : JSStr) (f : Bool) (path : JSStr) :
    extractFilter sp ⟨some pfx, f⟩ path
      = (⟨some pfx, f || matchesRel sp (path.drop pfx.length)⟩,
         matchesRel sp (path.drop pfx.length)) := by
  unfold extractFilter matchesRel
  by_cases h1 : segsStartWith sp (segmentsOf (path.drop pfx.length)) = true
  · by_cases h2 : (segmentsOf (path.drop pfx.length)).length ≤ sp.length
    · have : ¬ (sp.length < (segmentsOf (path.drop pfx.length)).length) := by omega
      simp [h1, h2, this]
    · have : sp.length < (segmentsOf (path.drop pfx.length)).length := by omega
      simp [h1, h2, this]
  · simp [h1]

theorem extractFilter_none_none (sp : List JSStr) (f : Bool) (path : JSStr)
    (h : derivePfx path = none) :
    extractFilter sp ⟨none, f⟩ path = (⟨none, f⟩, false) := by
  unfold extractFilter
  simp [h]

theorem extractFilter_none_some (sp : List JSStr) (f : Bool) (path : JSStr) (q : JSStr)
    (h : derivePfx path = some q) :
    extractFilter sp ⟨none, f⟩ path = extractFilter sp ⟨some q, f⟩ path := by
  unfold extractFilter
  simp [h]

theorem processEntry_some (o : ExtractOptions) (sp : List JSStr) (acc : RunAcc)
    (e : TarEntry) (p : JSStr) (hp : acc.tarballPfx = some p) :
    processEntry o sp acc e
      = if matchesRel sp (e.path.drop p.length)
        then ⟨some p, true, acc.effects ++ onReadEntryStep o sp (some p) e⟩
        else ⟨some p, acc.foundFiles, acc.effects⟩ := by
  unfold processEntry
  rw [hp, extractFilter_some]
  cases hm : matchesRel sp (e.path.drop p.length) <;> simp [hm]

theorem processEntry_none_none (o : ExtractOptions) (sp : List JSStr) (acc : RunAcc)
    (e : TarEntry) (hp : acc.tarballPfx = none) (hd : derivePfx e.path = none) :
    processEntry o sp acc e = ⟨none, acc.foundFiles, acc.effects⟩ := by
  unfold processEntry
  rw [hp, extractFilter_none_none _ _ _ hd]
  rfl

theorem processEntry_none_some (o : ExtractOptions) (sp : List JSStr) (acc : RunAcc)
    (e : TarEntry) (q : JSStr) (hp : acc.tarballPfx = none) (hd : derivePfx e.path = some q) :
    processEntry o sp acc e = processEntry o sp ⟨some q, acc.foundFiles, acc.effects⟩ e := by
  unfold processEntry
  rw [hp, extractFilter_none_some _ _ _ _ hd]

theorem processEntry_pfx_some (o : ExtractOptions) (sp : List JSStr) (acc : RunAcc)
    (e : TarEntry) (p : JSStr) (hp : acc.tarballPfx = some p) :
    (processEntry o sp acc e).tarballPfx = some p := by
  rw [processEntry_some o sp acc e p hp]
  split <;> rfl

theorem foldl_pfx_some (o : ExtractOptions) (sp : List JSStr) (entries : List TarEntry) :
    ∀ (acc : RunAcc) (p : JSStr), acc.tarballPfx = some p →
    (List.foldl (processEntry o sp) acc entries).tarballPfx = some p := by
  induction entries with
  | nil => intro acc p hp; simpa using hp
  | cons e es ih =>
    intro acc p hp
    rw [List.foldl_cons]
    exact ih _ p (processEntry_pfx_some o sp acc e p hp)

theorem foldl_pfx_eq (o : ExtractOptions) (sp : List JSStr) (entries : List TarEntry) :
    ∀ (acc : RunAcc),
    (List.foldl (processEntry o sp) acc entries).tarballPfx
      = match acc.tarballPfx with
        | some p => some p
        | none => entries.findSome? (fun e => derivePfx e.path) := by
  induction entries with
  | nil =>
    intro acc
    rw [List.foldl_nil]
    cases hp : acc.tarballPfx with
    | none => rfl
    | some p => rfl
  | cons e es ih =>
    intro acc
    rw [List.foldl_cons, ih]
    cases hp : acc.tarballPfx with
    | some p => rw [processEntry_pfx_some o sp acc e p hp]
    | none =>
      cases hd : derivePfx e.path with
      | none =>
        rw [processEntry_none_none o sp acc e hp hd]
        simp [List.findSome?_cons, hd]
      | some q =>
        have h2 : (processEntry o sp acc e).tarballPfx = some q := by
          rw [processEntry_none_some o sp acc e q hp hd]
          exact processEntry_pfx_some o sp _ e q rfl
        rw [h2]
        simp [List.findSome?_cons, hd]

theorem foldl_no_pfx (o : ExtractOptions) (sp : List JSStr) (entries : List TarEntry) :
    ∀ (acc : RunAcc), acc.tarballPfx = none →
    entries.findSome? (fun e => derivePfx e.path) = none →
    List.foldl (processEntry o sp) acc entries = ⟨none, acc.foundFiles, acc.effects⟩ := by
  induction entries with
  | nil =>
    intro acc hp _
    rw [List.foldl_nil]
    cases acc with
    | mk pfx f ef => cases hp; rfl
  | cons e es ih =>
    intro acc hp hall
    rw [List.findSome?_cons] at hall
    cases hd : derivePfx e.path with
    | some q => rw [hd] at hall; simp at hall
    | none =>
      rw [hd] at hall
      rw [List.foldl_cons, processEntry_none_none o sp acc e hp hd]
      exact ih _ rfl hall

theorem processEntry_found_inv_some (o : ExtractOptions) (sp : List JSStr) (acc : RunAcc)
    (e : TarEntry) (p : JSStr) (hp : acc.tarballPfx = some p) (hinv : FoundInv acc) :
    FoundInv (processEntry o sp acc e) := by
  rw [processEntry_some o sp acc e p hp]
  split
  · intro _; rfl
  · exact hinv

theorem processEntry_found_inv (o : ExtractOptions) (sp : List JSStr) (acc : RunAcc)
    (e : TarEntry) (hinv : FoundInv acc) : FoundInv (processEntry o sp acc e) := by
  cases hp : acc.tarballPfx with
  | some p => exact processEntry_found_inv_some o sp acc e p hp hinv
  | none =>
    cases hd : derivePfx e.path with
    | none =>
      rw [processEntry_none_none o sp acc e hp hd]
      exact hinv
    | some q =>
      rw [processEntry_none_some o sp acc e q hp hd]
      exact processEntry_found_inv_some o sp _ e q rfl hinv

theorem foldl_found_inv (o : ExtractOptions) (sp : List JSStr) (entries : List TarEntry) :
    ∀ (acc : RunAcc), FoundInv acc →
    FoundInv (List.foldl (processEntry o sp) acc entries) := by
  induction entries with
  | nil => intro acc h; simpa using h
  | cons e es ih =>
    intro acc h
    rw [List.foldl_cons]
    exact ih _ (processEntry_found_inv o sp acc e h)

theorem runState_found_inv (entries : List TarEntry) (o : ExtractOptions) :
    FoundInv (runState entries o) := by
  unfold runState
  exact foldl_found_inv o (subpathPartsOf o) entries _ (fun h => absurd rfl h)

theorem extractTarball_effects (fsOk : JSStr → Bool) (entries : List TarEntry)
    (o : ExtractOptions) :
    (extractTarball fsOk entries o).2 = (runState entries o).effects := by
  unfold extractTarball
  by_cases h1 : (runState entries o).foundFiles = false
  · simp [h1]
  · by_cases h2 : (writePaths (runState entries o).effects).all fsOk = true
    · simp [h1, h2]
    · simp [h1, h2]

theorem extractTarball_result (fsOk : JSStr → Bool) (entries : List TarEntry)
    (o : ExtractOptions) :
    (extractTarball fsOk entries o).1
      = if (runState entries o).foundFiles = false then
          .noFilesError (noFilesMessage o.subpath)
        else if (writePaths (runState entries o).effects).all fsOk then .completed
        else .writeError := by
  unfold extractTarball
  by_cases h1 : (runState entries o).foundFiles = false
  · simp [h1]
  · by_cases h2 : (writePaths (runState entries o).effects).all fsOk = true
    · simp [h1, h2]
    · simp [h1, h2]

/-- C1: for an entry path that begins with the discovered archive root, the
per-entry match decision accepts it if and only if the relative path left
after stripping that root has at least one segment more than the requested
subpath and starts, segment by segment, with exactly the subpath segments.
Exact per-segment string equality is forced by `List.take`-equality, so a
segment such as `examples-v2` cannot match `examples`, and a relative path
equal to the subpath itself (no extra segment) is rejected. -/
theorem c1_match_decision (sp : List JSStr) (pfx rest : JSStr) (f : Bool) :
    (extractFilter sp ⟨some pfx, f⟩ (pfx ++ rest)).2 = true
      ↔ ((segmentsOf rest).take sp.length = sp
          ∧ sp.length + 1 ≤ (segmentsOf rest).length) := by
  rw [extractFilter_some]
  show matchesRel sp ((pfx ++ rest).drop pfx.length) = true ↔ _
  rw [List.drop_left]
  unfold matchesRel
  rw [Bool.and_eq_true, segsStartWith_iff]
  simp [Nat.lt_iff_add_one_le]

/-- C7: within one run, once the archive root state holds a value, no later
entry changes it: folding any further entries over a state whose root is
`some p` leaves the root equal to `some p`. -/
theorem c7_pfx_immutable (o : ExtractOptions) (entries : List TarEntry) (acc : RunAcc)
    (p : JSStr) (hp : acc.tarballPfx = some p) :
    (List.foldl (processEntry o (subpathPartsOf o)) acc entries).tarballPfx = some p :=
  foldl_pfx_some o (subpathPartsOf o) entries acc p hp

theorem c7_pfx_immutable_witness :
    (⟨some "root/".toList, false, []⟩ : RunAcc).tarballPfx = some "root/".toList
    ∧ (List.foldl
        (processEntry ⟨"/out".toList, "sub".toList, false⟩
          (subpathPartsOf ⟨"/out".toList, "sub".toList, false⟩))
        ⟨some "root/".toList, false, []⟩
        [⟨"other/x.ts".toList, .file, "x".toList⟩,
         ⟨"second/y.ts".toList, .file, "y".toList⟩]).tarballPfx
      = some "root/".toList :=
  ⟨rfl, c7_pfx_immutable ⟨"/out".toList, "sub".toList, false⟩ _ _ _ rfl⟩

/-- C3 (counterexample): the claim predicts that when the first entry's path
contains no separator, no prefix is ever determined and the run ends in the
no-files failure.  On this archive the first entry `noslash` has no
separator, yet the run completes successfully and writes output, because the
code retries prefix detection on every entry while the prefix is still null
and the second entry `root/sub/a.ts` supplies one. -/
theorem c3_counterexample :
    (extractTarball fsAll
       [⟨"noslash".toList, .file, "x".toList⟩,
        ⟨"root/sub/a.ts".toList, .file, "y".toList⟩]
       ⟨"/out".toList, "sub".toList, false⟩).1 = .completed
    ∧ (extractTarball fsAll
       [⟨"noslash".toList, .file, "x".toList⟩,
        ⟨"root/sub/a.ts".toList, .file, "y".toList⟩]
       ⟨"/out".toList, "sub".toList, false⟩).2 ≠ [] := by decide

/-- C3 (amended): the archive root prefix is derived at most once, from the
first entry whose path contains a separator at a positive index (as the
substring up to and including that separator, which is what `derivePfx`
computes) — not necessarily from the first entry; entries processed while no
prefix is known are rejected, and if no entry at all yields a prefix the run
ends in the "no files found" failure with no filesystem effects. -/
theorem c3_amended (fsOk : JSStr → Bool) (entries : List TarEntry) (o : ExtractOptions) :
    (runState entries o).tarballPfx = entries.findSome? (fun e => derivePfx e.path)
    ∧ (entries.findSome? (fun e => derivePfx e.path) = none →
        (extractTarball fsOk entries o).1 = .noFilesError (noFilesMessage o.subpath)
        ∧ (extractTarball fsOk entries o).2 = []) := by
  constructor
  · unfold runState
    rw [foldl_pfx_eq]
  · intro hnone
    have hrun : runState entries o = ⟨none, false, []⟩ := by
      unfold runState
      exact foldl_no_pfx o (subpathPartsOf o) entries _ rfl hnone
    rw [extractTarball_result, extractTarball_effects, hrun]
    exact ⟨rfl, rfl⟩

theorem c3_amended_witness :
    (extractTarball fsAll [⟨"noslash".toList, .file, "x".toList⟩]
       ⟨"/out".toList, "sub".toList, false⟩).1
      = .noFilesError (noFilesMessage "sub".toList) :=
  ((c3_amended fsAll [⟨"noslash".toList, .file, "x".toList⟩]
      ⟨"/out".toList, "sub".toList, false⟩).2 (by decide)).1

/-- C5 (counterexample): the claim's invariant `strip count ≥ 1` fails for a
subpath that normalizes to zero segments together with
`keepFolderName = true`: the computed strip count is `1 + (0 - 1) = 0`. -/
theorem c5_counterexample :
    stripCountFor (segmentsOf []) true = 0
    ∧ ¬ (1 ≤ stripCountFor (segmentsOf []) true) := by decide

/-- C5 (amended): the strip count equals
`1 + (segments − 1 if keepFolderName else segments)`; it always satisfies
`0 ≤ strip count ≤ 1 + segments`, and `strip count ≥ 1` holds whenever
`keepFolderName` is false or the subpath has at least one segment — the sole
exception being an empty subpath with `keepFolderName = true`, where it
is `0`. -/
theorem c5_amended (sp : List JSStr) (keep : Bool) :
    stripCountFor sp keep
      = 1 + (if keep then (sp.length : Int) - 1 else (sp.length : Int))
    ∧ 0 ≤ stripCountFor sp keep
    ∧ stripCountFor sp keep ≤ 1 + (sp.length : Int)
    ∧ ((keep = false ∨ sp ≠ []) → 1 ≤ stripCountFor sp keep) := by
  cases keep with
  | false =>
    unfold stripCountFor
    simp only [Bool.false_eq_true, if_false]
    refine ⟨trivial, by omega, by omega, fun _ => by omega⟩
  | true =>
    unfold stripCountFor
    simp only [if_pos rfl]
    refine ⟨trivial, by omega, by omega, ?_⟩
    rintro (h | h)
    · exact absurd h (by simp)
    · have hlen : sp.length ≠ 0 := fun hh => h (List.length_eq_zero.mp hh)
      omega

theorem c5_amended_witness :
    stripCountFor [['a']] true = 1 + ((1 : Int) - 1) ∧ 1 ≤ stripCountFor [['a']] true :=
  ⟨(c5_amended [['a']] true).1, (c5_amended [['a']] true).2.2.2 (Or.inr (by decide))⟩

/-- C9: an archive whose only matching entry has a kind other than File or
Directory (here a symbolic link) makes the run complete successfully while
issuing no filesystem operation at all: the match flag is set by the filter
before any filesystem effect is dispatched. -/
theorem c9_success_without_effects :
    extractTarball fsAll [⟨"root/sub/link".toList, .other, []⟩]
      ⟨"/out".toList, "sub".toList, false⟩
      = (.completed, []) := by decide

/-- C4: when every issued file write succeeds (the analogue of "decodes
without error" for the filesystem side), the run fails if and only if the
`foundFiles` flag is still false at stream end — i.e. zero entries matched —
and in that case the failure carries the no-files message, which contains
the requested subpath verbatim as a contiguous substring; non-matching
entries never produce an error on their own. -/
theorem c4_fail_iff_no_match (entries : List TarEntry) (o : ExtractOptions) :
    ((extractTarball fsAll entries o).1 ≠ .completed
        ↔ (runState entries o).foundFiles = false)
    ∧ ((runState entries o).foundFiles = false →
        (extractTarball fsAll entries o).1 = .noFilesError (noFilesMessage o.subpath))
    ∧ (∃ a b, noFilesMessage o.subpath = a ++ o.subpath ++ b) := by
  have hres := extractTarball_result fsAll entries o
  have hall : (writePaths (runState entries o).effects).all fsAll = true := by
    simp [fsAll]
  refine ⟨?_, ?_, ?_⟩
  · by_cases hf : (runState entries o).foundFiles = false
    · rw [hres]
      simp [hf]
    · rw [hres]
      simp [hf, hall]
  · intro hf
    rw [hres]
    simp [hf]
  · exact ⟨"No files found at path \"".toList,
      "\".\nPlease check that the path exists in the repository.".toList, rfl⟩

theorem c4_fail_iff_no_match_witness :
    (extractTarball fsAll [⟨"root/src/index.ts".toList, .file, "x".toList⟩]
       ⟨"/out".toList, "nonexistent".toList, false⟩).1
      = .noFilesError (noFilesMessage "nonexistent".toList) :=
  (c4_fail_iff_no_match [⟨"root/src/index.ts".toList, .file, "x".toList⟩]
      ⟨"/out".toList, "nonexistent".toList, false⟩).2.1 (by decide)

/-- C6: the run is declared `completed` only if every issued file write
succeeded, and an issued write whose completion fails makes the whole run
end in the write failure instead of success — stream end plus matches is
necessary but not sufficient. -/
theorem c6_writes_drain (fsOk : JSStr → Bool) (entries : List TarEntry) (o : ExtractOptions) :
    ((extractTarball fsOk entries o).1 = .completed →
      ∀ p c, FsOp.writeFile p c ∈ (extractTarball fsOk entries o).2 → fsOk p = true)
    ∧ (∀ p c, FsOp.writeFile p c ∈ (extractTarball fsOk entries o).2 →
        fsOk p = false → (extractTarball fsOk entries o).1 = .writeError) := by
  have heff := extractTarball_effects fsOk entries o
  have hres := extractTarball_result fsOk entries o
  constructor
  · intro hc p c hmem
    rw [heff] at hmem
    by_cases hf : (runState entries o).foundFiles = false
    · rw [hres] at hc
      simp [hf] at hc
    · by_cases hall : (writePaths (runState entries o).effects).all fsOk = true
      · have hp : p ∈ writePaths (runState entries o).effects :=
          List.mem_filterMap.mpr ⟨FsOp.writeFile p c, hmem, rfl⟩
        exact List.all_eq_true.mp hall p hp
      · rw [hres] at hc
        simp [hf, hall] at hc
  · intro p c hmem hbad
    rw [heff] at hmem
    have hne : (runState entries o).effects ≠ [] := by
      intro h0
      rw [h0] at hmem
      simp at hmem
    have hf : (runState entries o).foundFiles = true := runState_found_inv entries o hne
    have hp : p ∈ writePaths (runState entries o).effects :=
      List.mem_filterMap.mpr ⟨FsOp.writeFile p c, hmem, rfl⟩
    have hall : ¬ ((writePaths (runState entries o).effects).all fsOk = true) := by
      intro hall
      have hgood := List.all_eq_true.mp hall p hp
      rw [hbad] at hgood
      exact absurd hgood (by simp)
    rw [hres]
    simp [hf, hall]

theorem c6_writes_drain_witness :
    (extractTarball (fun p => !(p == "/out/a.ts".toList))
       [⟨"root/sub/a.ts".toList, .file, "y".toList⟩]
       ⟨"/out".toList, "sub".toList, false⟩).1 = .writeError :=
  (c6_writes_drain (fun p => !(p == "/out/a.ts".toList))
      [⟨"root/sub/a.ts".toList, .file, "y".toList⟩]
      ⟨"/out".toList, "sub".toList, false⟩).2
    ("/out/a.ts".toList) ("y".toList) (by decide) (by decide)

/-- C8: prefix removal is by character count only — the match decision is a
function of the entry path with its first `prefix.length` characters
dropped, with no check that those characters equal the prefix; consequently
an entry under a different top-level directory of the same length
(`other/examples/file.ts` under discovered root `roota/`) is accepted and
extracted as if it were under the requested subpath. -/
theorem c8_char_count_strip (sp : List JSStr) (pfx path : JSStr) (f : Bool) :
    ((extractFilter sp ⟨some pfx, f⟩ path).2 = matchesRel sp (path.drop pfx.length))
    ∧ (extractTarball fsAll
         [⟨"roota/x.ts".toList, .file, "a".toList⟩,
          ⟨"other/examples/file.ts".toList, .file, "B".toList⟩]
         ⟨"/out".toList, "examples".toList, false⟩
        = (.completed,
           [.mkdir "/out".toList, .writeFile "/out/file.ts".toList "B".toList])) := by
  constructor
  · rw [extractFilter_some]
  · decide

/-- C10: when the subpath normalizes to zero segments, every entry whose
path after the discovered root still has at least one non-empty segment is
accepted; with `keepFolderName = true` the strip count is `0`, so an
accepted file entry is materialized at
`destination ++ "/" ++ entry.path` — the output path keeps the full entry
path, provider root prefix included, as its leading directory. -/
theorem c10_empty_subpath (o : ExtractOptions) (pfx rest c : JSStr) (f : Bool)
    (hsub : subpathPartsOf o = []) (hkeep : o.keepFolderName = true)
    (hrest : segmentsOf rest ≠ []) :
    (extractFilter (subpathPartsOf o) ⟨some pfx, f⟩ (pfx ++ rest)).2 = true
    ∧ stripCountFor (subpathPartsOf o) o.keepFolderName = 0
    ∧ onReadEntryStep o (subpathPartsOf o) (some pfx) ⟨pfx ++ rest, .file, c⟩
        = [.mkdir (jsDirname (o.destination ++ '/' :: (pfx ++ rest))),
           .writeFile (o.destination ++ '/' :: (pfx ++ rest)) c] := by
  have hr : rest ≠ [] := by
    intro h0
    rw [h0] at hrest
    exact hrest (by decide)
  refine ⟨?_, ?_, ?_⟩
  · rw [extractFilter_some]
    show matchesRel _ ((pfx ++ rest).drop pfx.length) = true
    rw [List.drop_left, hsub]
    unfold matchesRel
    simp [segsStartWith]
    exact List.length_pos.mpr hrest
  · rw [hsub, hkeep]
    decide
  · have hsc : (stripCountFor [] true).toNat = 0 := by decide
    have hpr : pfx ++ rest ≠ [] := fun h0 => hr (List.append_eq_nil.mp h0).2
    simp only [onReadEntryStep, hsub, hkeep, hsc, List.drop_zero]
    rw [jsJoin_split]
    rw [if_neg hpr]

theorem c10_empty_subpath_witness :
    (extractFilter (subpathPartsOf ⟨"/out".toList, [], true⟩)
        ⟨some "root/".toList, false⟩ ("root/".toList ++ "a.ts".toList)).2 = true
    ∧ stripCountFor (subpathPartsOf ⟨"/out".toList, [], true⟩) true = 0
    ∧ onReadEntryStep ⟨"/out".toList, [], true⟩ (subpathPartsOf ⟨"/out".toList, [], true⟩)
        (some "root/".toList) ⟨"root/".toList ++ "a.ts".toList, .file, "y".toList⟩
        = [.mkdir (jsDirname ("/out".toList ++ '/' :: ("root/".toList ++ "a.ts".toList))),
           .writeFile ("/out".toList ++ '/' :: ("root/".toList ++ "a.ts".toList)) "y".toList] :=
  c10_empty_subpath ⟨"/out".toList, [], true⟩ "root/".toList "a.ts".toList "y".toList false
    (by decide) rfl (by decide)

theorem jsJoin_ne_nil (segs : List JSStr) (hne : segs ≠ []) (h : ∀ s ∈ segs, s ≠ []) :
    jsJoin '/' segs ≠ [] := by
  cases segs with
  | nil => exact absurd rfl hne
  | cons s rest =>
    cases rest with
    | nil => simpa [jsJoin] using h s (by simp)
    | cons r t =>
      have hj : jsJoin '/' (s :: r :: t) = s ++ '/' :: jsJoin '/' (r :: t) := by
        simp [jsJoin]
      rw [hj]
      intro h0
      rcases List.append_eq_nil.mp h0 with ⟨_, h2⟩
      exact absurd h2 (by simp)

theorem jsJoin_append_empty (segs : List JSStr) (hne : segs ≠ []) :
    jsJoin '/' (segs ++ [[]]) = jsJoin '/' segs ++ ['/'] := by
  induction segs with
  | nil => exact absurd rfl hne
  | cons s rest ih =>
    cases rest with
    | nil => simp [jsJoin]
    | cons r t =>
      have h1 : jsJoin '/' ((s :: r :: t) ++ [[]]) = s ++ '/' :: jsJoin '/' ((r :: t) ++ [[]]) := by
        simp [jsJoin]
      have h2 : jsJoin '/' (s :: r :: t) = s ++ '/' :: jsJoin '/' (r :: t) := by
        simp [jsJoin]
      rw [h1, ih (by simp), h2]
      simp

theorem drop_length_cons (x : JSStr) (S : List JSStr) (hS : S ≠ []) :
    (x :: S).drop S.length = S.drop (S.length - 1) := by
  have h1 : S.length = (S.length - 1) + 1 := by
    have := List.length_pos.mpr hS
    omega
  conv_lhs => rw [h1]
  exact List.drop_succ_cons

theorem segmentsOf_mem_ne_nil (s : JSStr) (x : JSStr) (h : x ∈ segmentsOf s) : x ≠ [] := by
  unfold segmentsOf at h
  have := List.of_mem_filter h
  simpa using this

theorem mkEntry_path (P : JSStr) (a : AbsEntry) :
    (mkEntry P a).path
      = (P ++ ['/']) ++ (jsJoin '/' a.segs ++ if a.kind = .directory then ['/'] else []) := by
  unfold mkEntry
  rw [List.append_cons]

theorem segmentsOf_mk_rel (a : AbsEntry) (hwf : WfAbs a) :
    segmentsOf (jsJoin '/' a.segs ++ if a.kind = .directory then ['/'] else []) = a.segs := by
  by_cases hk : a.kind = .directory
  · rw [if_pos hk]
    exact segmentsOf_join_slash a.segs hwf.1 hwf.2
  · rw [if_neg hk, List.append_nil]
    exact segmentsOf_join a.segs hwf.1 hwf.2

theorem matchesRel_mk (S : List JSStr) (a : AbsEntry) (hwf : WfAbs a) :
    matchesRel S (jsJoin '/' a.segs ++ if a.kind = .directory then ['/'] else [])
      = decide (a.segs.take S.length = S ∧ S.length < a.segs.length) := by
  unfold matchesRel
  rw [segmentsOf_mk_rel a hwf]
  cases hb : segsStartWith S a.segs with
  | false =>
    have hne : ¬ (a.segs.take S.length = S) := by
      intro h1
      rw [(segsStartWith_iff S a.segs).mpr h1] at hb
      cases hb
    simp [hne]
  | true =>
    have h1 : a.segs.take S.length = S := (segsStartWith_iff S a.segs).mp hb
    by_cases h2 : S.length < a.segs.length <;> simp [h1, h2]

theorem onReadEntryStep_some (o : ExtractOptions) (sp : List JSStr) (q : JSStr) (e : TarEntry) :
    onReadEntryStep o sp (some q) e
      = (let newPath := jsJoin '/'
            ((jsSplit '/' e.path).drop (stripCountFor sp o.keepFolderName).toNat);
         if newPath = [] then []
         else
           let extractPath := o.destination ++ '/' :: newPath
           match e.kind with
           | .directory => [.mkdir extractPath]
           | .file => [.mkdir (jsDirname extractPath), .writeFile extractPath e.content]
           | .other => []) := rfl

theorem jsSplit_mkEntry (P : JSStr) (a : AbsEntry) (hPs : '/' ∉ P) (hwf : WfAbs a) :
    jsSplit '/' (mkEntry P a).path
      = [P] ++ (a.segs ++ if a.kind = .directory then [[]] else []) := by
  show jsSplit '/' (P ++ '/' :: (jsJoin '/' a.segs ++ if a.kind = .directory then ['/'] else []))
      = _
  rw [jsSplit_append, jsSplit_no_sep '/' P hPs]
  congr 1
  by_cases hk : a.kind = .directory
  · rw [if_pos hk, if_pos hk]
    have h0 : jsJoin '/' a.segs ++ ['/'] = jsJoin '/' a.segs ++ '/' :: ([] : JSStr) := rfl
    rw [h0, jsSplit_append, jsSplit_join '/' a.segs hwf.1 (fun s hs => (hwf.2 s hs).2)]
    rfl
  · rw [if_neg hk, if_neg hk, List.append_nil, List.append_nil]
    exact jsSplit_join '/' a.segs hwf.1 (fun s hs => (hwf.2 s hs).2)

theorem drop_strip_mkEntry (o : ExtractOptions) (S : List JSStr) (P : JSStr) (a : AbsEntry)
    (hPs : '/' ∉ P) (hwf : WfAbs a)
    (hkeep : o.keepFolderName = true → S ≠ [])
    (hc : a.segs.take S.length = S ∧ S.length < a.segs.length) :
    (jsSplit '/' (mkEntry P a).path).drop (stripCountFor S o.keepFolderName).toNat
      = ((if o.keepFolderName then S.drop (S.length - 1) else []) ++ a.segs.drop S.length)
        ++ (if a.kind = .directory then [[]] else []) := by
  have hsegs : a.segs = S ++ a.segs.drop S.length := by
    conv_lhs => rw [← List.take_append_drop S.length a.segs]
    rw [hc.1]
  rw [jsSplit_mkEntry P a hPs hwf]
  cases hkf : o.keepFolderName with
  | false =>
    have ht : (stripCountFor S false).toNat = S.length + 1 := by
      unfold stripCountFor
      simp only [Bool.false_eq_true, if_false]
      omega
    rw [ht]
    conv_lhs => rw [hsegs]
    rw [show ([P] ++ ((S ++ a.segs.drop S.length)
            ++ if a.kind = .directory then [[]] else ([] : List JSStr)))
          = (([P] ++ S) ++ (a.segs.drop S.length
            ++ if a.kind = .directory then [[]] else ([] : List JSStr))) from by simp]
    rw [show S.length + 1 = ([P] ++ S).length from by simp [Nat.add_comm]]
    rw [List.drop_left]
    simp
  | true =>
    have ht : (stripCountFor S true).toNat = S.length := by
      unfold stripCountFor
      rw [if_pos rfl]
      omega
    rw [ht]
    conv_lhs => rw [hsegs]
    rw [show ([P] ++ ((S ++ a.segs.drop S.length)
            ++ if a.kind = .directory then [[]] else ([] : List JSStr)))
          = ((P :: S) ++ (a.segs.drop S.length
            ++ if a.kind = .directory then [[]] else ([] : List JSStr))) from by simp]
    rw [List.drop_append_of_le_length (by simp)]
    rw [drop_length_cons P S (hkeep hkf)]
    simp

theorem onReadEntryStep_mk (o : ExtractOptions) (S : List JSStr) (P : JSStr) (a : AbsEntry)
    (hPs : '/' ∉ P) (hwf : WfAbs a) (hSel : ∀ s ∈ S, s ≠ [])
    (hkeep : o.keepFolderName = true → S ≠ [])
    (hc : a.segs.take S.length = S ∧ S.length < a.segs.length) :
    onReadEntryStep o S (some (P ++ ['/'])) (mkEntry P a)
      = expectedOps o.destination S o.keepFolderName a := by
  have hrest : a.segs.drop S.length ≠ [] := by
    have h0 : 0 < (a.segs.drop S.length).length := by
      rw [List.length_drop]
      omega
    exact List.length_pos.mp h0
  have houtne : ((if o.keepFolderName then S.drop (S.length - 1) else [])
      ++ a.segs.drop S.length) ≠ [] := by
    intro h0
    exact hrest (List.append_eq_nil.mp h0).2
  have houtel : ∀ s ∈ ((if o.keepFolderName then S.drop (S.length - 1) else [])
      ++ a.segs.drop S.length), s ≠ [] := by
    intro s hs
    rcases List.mem_append.mp hs with hs1 | hs2
    · cases hkf : o.keepFolderName with
      | false =>
        rw [hkf] at hs1
        simp at hs1
      | true =>
        rw [hkf] at hs1
        simp at hs1
        exact hSel s (List.mem_of_mem_drop hs1)
    · exact (hwf.2 s (List.mem_of_mem_drop hs2)).1
  rw [onReadEntryStep_some]
  simp only []
  rw [drop_strip_mkEntry o S P a hPs hwf hkeep hc]
  simp only [mkEntry]
  unfold expectedOps
  rw [if_pos hc]
  cases hk : a.kind with
  | file =>
    rw [if_neg (by decide : ¬ (EntryType.file = EntryType.directory)), List.append_nil]
    have hne := jsJoin_ne_nil _ houtne houtel
    rw [if_neg hne]
  | directory =>
    rw [if_pos rfl]
    rw [jsJoin_append_empty _ houtne]
    have hne : jsJoin '/' ((if o.keepFolderName then S.drop (S.length - 1) else [])
        ++ a.segs.drop S.length) ++ ['/'] ≠ [] := by simp
    rw [if_neg hne]
    simp
  | other =>
    rw [if_neg (by decide : ¬ (EntryType.other = EntryType.directory)), List.append_nil]
    by_cases hj : jsJoin '/' ((if o.keepFolderName = true then S.drop (S.length - 1) else [])
        ++ a.segs.drop S.length) = []
    · rw [if_pos hj]
    · rw [if_neg hj]

theorem processEntry_mk (o : ExtractOptions) (S : List JSStr) (P : JSStr) (a : AbsEntry)
    (f : Bool) (ops : List FsOp)
    (hPs : '/' ∉ P) (hwf : WfAbs a) (hSel : ∀ s ∈ S, s ≠ [])
    (hkeep : o.keepFolderName = true → S ≠ []) :
    processEntry o S ⟨some (P ++ ['/']), f, ops⟩ (mkEntry P a)
      = ⟨some (P ++ ['/']),
         (if a.segs.take S.length = S ∧ S.length < a.segs.length then true else f),
         ops ++ expectedOps o.destination S o.keepFolderName a⟩ := by
  rw [processEntry_some o S _ _ _ rfl]
  have hpath : (mkEntry P a).path.drop (P ++ ['/']).length
      = (jsJoin '/' a.segs ++ if a.kind = .directory then ['/'] else []) := by
    rw [mkEntry_path P a, List.drop_left]
  rw [hpath, matchesRel_mk S a hwf]
  by_cases hcc : a.segs.take S.length = S ∧ S.length < a.segs.length
  · rw [if_pos (decide_eq_true hcc), if_pos hcc]
    rw [onReadEntryStep_mk o S P a hPs hwf hSel hkeep hcc]
  · rw [if_neg (by simpa using hcc), if_neg hcc]
    have hexp : expectedOps o.destination S o.keepFolderName a = [] := by
      unfold expectedOps
      rw [if_neg hcc]
    rw [hexp, List.append_nil]

theorem foldl_mk (o : ExtractOptions) (P : JSStr)
    (hPs : '/' ∉ P) (hSel : ∀ s ∈ subpathPartsOf o, s ≠ [])
    (hkeep : o.keepFolderName = true → subpathPartsOf o ≠ []) :
    ∀ (abss : List AbsEntry), (∀ a ∈ abss, WfAbs a) →
    ∀ (f : Bool) (ops : List FsOp),
    (List.foldl (processEntry o (subpathPartsOf o)) ⟨some (P ++ ['/']), f, ops⟩
        (abss.map (mkEntry P))).effects
      = ops ++ (abss.map
          (expectedOps o.destination (subpathPartsOf o) o.keepFolderName)).flatten := by
  intro abss
  induction abss with
  | nil =>
    intro _ f ops
    simp
  | cons a rest ih =>
    intro hwf f ops
    rw [List.map_cons, List.foldl_cons]
    rw [processEntry_mk o _ P a f ops hPs (hwf a (by simp)) hSel hkeep]
    rw [ih (fun x hx => hwf x (List.mem_cons_of_mem _ hx)) _ _]
    rw [List.map_cons, List.flatten_cons, List.append_assoc]

/-- C2: for a well-formed archive under a slash-free root directory `P`
(file and other entries at `P/seg…`, directory entries at `P/seg…/`), the
operations the run issues are exactly, entry for entry, the ones the
specification's layout predicts (`expectedOps`): each strict descendant
`S ++ rest` of the requested subpath `S` is materialized at
`destination ++ "/" ++ rest` when `keepFolderName` is false and at
`destination ++ "/" ++ last(S) ++ "/" ++ rest` when it is true, and no
other entry contributes anything — the exact subtree, with no extra nesting
and no sibling leakage. -/
theorem c2_subtree (o : ExtractOptions) (P : JSStr) (abss : List AbsEntry)
    (fsOk : JSStr → Bool)
    (hP : P ≠ []) (hPs : '/' ∉ P)
    (hkeep : o.keepFolderName = true → subpathPartsOf o ≠ [])
    (hwf : ∀ a ∈ abss, WfAbs a) :
    (extractTarball fsOk (abss.map (mkEntry P)) o).2
      = (abss.map (expectedOps o.destination (subpathPartsOf o) o.keepFolderName)).flatten := by
  rw [extractTarball_effects]
  unfold runState
  cases abss with
  | nil => simp
  | cons a rest =>
    rw [List.map_cons, List.foldl_cons]
    have hde : derivePfx (mkEntry P a).path = some (P ++ ['/']) := by
      show derivePfx (P ++ '/' :: _) = _
      exact derivePfx_root P _ hP hPs
    rw [processEntry_none_some o _ _ _ _ rfl hde]
    dsimp only
    rw [processEntry_mk o (subpathPartsOf o) P a false [] hPs (hwf a (by simp))
      (fun s hs => segmentsOf_mem_ne_nil o.subpath s hs) hkeep]
    rw [foldl_mk o P hPs (fun s hs => segmentsOf_mem_ne_nil o.subpath s hs) hkeep rest
      (fun x hx => hwf x (List.mem_cons_of_mem _ hx)) _ _]
    rw [List.map_cons, List.flatten_cons]
    simp

theorem c2_subtree_witness :
    (extractTarball fsAll
       [mkEntry "owner-repo-abc123".toList
         ⟨["a".toList, "b".toList, "c".toList, "file.ts".toList], .file, "deep".toList⟩]
       ⟨"/out".toList, "a/b/c".toList, true⟩).2
      = [.mkdir "/out/c".toList, .writeFile "/out/c/file.ts".toList "deep".toList] :=
  (c2_subtree ⟨"/out".toList, "a/b/c".toList, true⟩ "owner-repo-abc123".toList
      [⟨["a".toList, "b".toList, "c".toList, "file.ts".toList], .file, "deep".toList⟩]
      fsAll (by decide) (by decide) (by decide)
      (fun a ha => by
        rw [List.mem_singleton] at ha
        subst ha
        exact ⟨by decide, by decide⟩)).trans (by decide)
